import Mathlib

set_option maxHeartbeats 1000000
set_option maxRecDepth 8000

/-!
Verification development for the odex-telegram-relay repository.

JavaScript strings are modelled as lists of characters (`List Char`);
`String.prototype.trim` and friends are modelled with `Char.isWhitespace`.
The floating-point comparison `cut < max * 0.6` from the source is modelled
exactly over the rationals as `5 * cut < 3 * max` (both sides integers).
-/

namespace OdexRelay

/-- Model of `s.trimStart()`. -/
def jsTrimStart (l : List Char) : List Char := l.dropWhile Char.isWhitespace

/-- Model of `s.trimEnd()`. -/
def jsTrimEnd (l : List Char) : List Char := (l.reverse.dropWhile Char.isWhitespace).reverse

/-- Model of `s.trim()`. -/
def jsTrim (l : List Char) : List Char := jsTrimEnd (jsTrimStart l)

/-- Model of `s.trim()` at the `String` level. -/
def jsTrimS (s : String) : String := String.mk (jsTrim s.data)

/-- Model of `remaining.lastIndexOf("\n", pos)`: the largest index `i ≤ pos`
holding a newline, `none` when there is no such index (JavaScript returns -1). -/
def lastNewlineIndex (l : List Char) (pos : Nat) : Option Nat :=
  (List.range (pos + 1)).reverse.find? (fun i => l[i]? == some '\n')

/-- Model of the cut-point computation in `splitForTelegram`:
`let cut = remaining.lastIndexOf("\n", max); if (cut < max * 0.6) cut = max;`.
A missing newline (-1) is always below the threshold, so it maps to `maxLen`. -/
def cutIndex (remaining : List Char) (maxLen : Nat) : Nat :=
  match lastNewlineIndex remaining maxLen with
  | some i => if 5 * i < 3 * maxLen then maxLen else i
  | none => maxLen

/-- Model of the `while (remaining.length > max)` loop of `splitForTelegram`,
including the final `if (remaining.length > 0) chunks.push(remaining)`.
The loop is expressed with explicit fuel; `splitLoop_fuel` below shows the
fuel is irrelevant once it is at least `remaining.length` (for `maxLen ≥ 1`). -/
def splitLoop (maxLen : Nat) : Nat → List Char → List (List Char)
  | 0, remaining => if remaining.length = 0 then [] else [remaining]
  | fuel + 1, remaining =>
    if remaining.length ≤ maxLen then
      (if remaining.length = 0 then [] else [remaining])
    else
      jsTrim (remaining.take (cutIndex remaining maxLen)) ::
        splitLoop maxLen fuel (jsTrimStart (remaining.drop (cutIndex remaining maxLen)))

/-- Model of `splitForTelegram(text, max)` from the relay source. -/
def splitForTelegram (text : List Char) (maxLen : Nat) : List (List Char) :=
  if text.length ≤ maxLen then [text] else splitLoop maxLen text.length text

/-- Number of iterations the `while (remaining.length > max)` loop performs. -/
def splitLoopIters (maxLen : Nat) : Nat → List Char → Nat
  | 0, _ => 0
  | fuel + 1, remaining =>
    if remaining.length ≤ maxLen then 0
    else
      splitLoopIters maxLen fuel (jsTrimStart (remaining.drop (cutIndex remaining maxLen))) + 1

/-- Model of `isAuthorized`: the configured allow-list set is modelled as a
list of chat ids, `ctx.chat?.id` as an optional integer (the
`typeof chatId === "number"` guard is the `some` case). -/
def isAuthorized (allowedChatIds : List Int) (chatId : Option Int) : Bool :=
  if allowedChatIds.length = 0 then true
  else
    match chatId with
    | some id => allowedChatIds.contains id
    | none => false

example : splitForTelegram "hello".data 10 = ["hello".data] := by decide
example : splitForTelegram "ab cd\nef gh ij".data 6 = ["ab cd".data, "ef gh".data, "ij".data] := by
  decide
example : splitForTelegram (List.replicate 11 ' ') 10 = [[]] := by decide
example : jsTrim " a ".data = "a".data := by decide

/-! Basic lemmas about the chunker. -/

theorem jsTrimStart_length_le (l : List Char) : (jsTrimStart l).length ≤ l.length :=
  (List.dropWhile_sublist Char.isWhitespace).length_le

theorem jsTrimEnd_length_le (l : List Char) : (jsTrimEnd l).length ≤ l.length := by
  rw [jsTrimEnd, List.length_reverse]
  have h := (List.dropWhile_sublist (l := l.reverse) Char.isWhitespace).length_le
  rw [List.length_reverse] at h
  exact h

theorem jsTrim_length_le (l : List Char) : (jsTrim l).length ≤ l.length :=
  le_trans (jsTrimEnd_length_le (jsTrimStart l)) (jsTrimStart_length_le l)

theorem cutIndex_le (l : List Char) (maxLen : Nat) : cutIndex l maxLen ≤ maxLen := by
  unfold cutIndex
  split
  · rename_i i hfind
    have hmem : i ∈ (List.range (maxLen + 1)).reverse := List.mem_of_find?_eq_some hfind
    have : i < maxLen + 1 := List.mem_range.mp (List.mem_reverse.mp hmem)
    split <;> omega
  · exact le_refl _

theorem cutIndex_pos (l : List Char) (maxLen : Nat) (hmax : 1 ≤ maxLen) :
    1 ≤ cutIndex l maxLen := by
  unfold cutIndex
  split
  · split <;> omega
  · exact hmax

theorem cutIndex_ge (l : List Char) (maxLen : Nat) (hmax : 1 ≤ maxLen) :
    (3 * maxLen + 4) / 5 ≤ cutIndex l maxLen := by
  unfold cutIndex
  split
  · split <;> omega
  · omega

theorem splitLoop_next_shorter (maxLen : Nat) (remaining : List Char) (hmax : 1 ≤ maxLen)
    (hlong : maxLen < remaining.length) :
    (jsTrimStart (remaining.drop (cutIndex remaining maxLen))).length < remaining.length := by
  have h1 : (jsTrimStart (remaining.drop (cutIndex remaining maxLen))).length ≤
      (remaining.drop (cutIndex remaining maxLen)).length := jsTrimStart_length_le _
  have h2 : (remaining.drop (cutIndex remaining maxLen)).length =
      remaining.length - cutIndex remaining maxLen := List.length_drop _ _
  have h3 := cutIndex_pos remaining maxLen hmax
  omega

theorem trimStart_head_not_ws (c : Char) (rest : List Char)
    (h : jsTrimStart (c :: rest) = c :: rest) : Char.isWhitespace c = false := by
  by_contra hc
  have hc2 : Char.isWhitespace c = true := by
    cases hb : Char.isWhitespace c
    · exact absurd hb hc
    · rfl
  rw [jsTrimStart, List.dropWhile_cons, if_pos hc2] at h
  have hlen := (List.dropWhile_sublist (l := rest) Char.isWhitespace).length_le
  rw [h] at hlen
  simp at hlen

theorem jsTrim_cons_ne_nil (c : Char) (l : List Char) (hc : Char.isWhitespace c = false) :
    jsTrim (c :: l) ≠ [] := by
  intro h
  have h1 : jsTrimStart (c :: l) = c :: l := by
    rw [jsTrimStart, List.dropWhile_cons, if_neg (by simp [hc])]
  rw [jsTrim, h1, jsTrimEnd] at h
  have h2 : (c :: l).reverse.dropWhile Char.isWhitespace = [] :=
    List.reverse_eq_nil_iff.mp h
  have h3 := List.dropWhile_eq_nil_iff.mp h2 c (List.mem_reverse.mpr (List.mem_cons_self c l))
  rw [hc] at h3
  exact Bool.false_ne_true h3

theorem jsTrimStart_idem (l : List Char) : jsTrimStart (jsTrimStart l) = jsTrimStart l := by
  induction l with
  | nil => rfl
  | cons c rest ih =>
    by_cases hc : Char.isWhitespace c
    · have h1 : jsTrimStart (c :: rest) = jsTrimStart rest := by
        rw [jsTrimStart, jsTrimStart, List.dropWhile_cons, if_pos hc]
      rw [h1, ih]
    · have h1 : jsTrimStart (c :: rest) = c :: rest := by
        rw [jsTrimStart, List.dropWhile_cons, if_neg hc]
      rw [h1, h1]

/-- Every segment produced by the loop fits in `maxLen` characters, as long as
the fuel covers the remaining length. -/
theorem splitLoop_length_le (maxLen : Nat) (hmax : 1 ≤ maxLen) :
    ∀ fuel remaining, remaining.length ≤ fuel →
      ∀ s ∈ splitLoop maxLen fuel remaining, s.length ≤ maxLen := by
  intro fuel
  induction fuel with
  | zero =>
    intro remaining hr s hs
    have h0 : remaining.length = 0 := Nat.le_zero.mp hr
    rw [splitLoop, if_pos h0] at hs
    exact absurd hs (List.not_mem_nil s)
  | succ f ih =>
    intro remaining hr s hs
    rw [splitLoop] at hs
    split at hs
    · rename_i hshort
      split at hs
      · exact absurd hs (List.not_mem_nil s)
      · rw [List.mem_singleton.mp hs]; exact hshort
    · rename_i hlong
      rcases List.mem_cons.mp hs with hchunk | hrest
      · have h1 : (jsTrim (remaining.take (cutIndex remaining maxLen))).length ≤
            (remaining.take (cutIndex remaining maxLen)).length := jsTrim_length_le _
        have h2 : (remaining.take (cutIndex remaining maxLen)).length ≤
            cutIndex remaining maxLen := by
          rw [List.length_take]; exact min_le_left _ _
        have h3 := cutIndex_le remaining maxLen
        rw [hchunk]
        omega
      · have hdec := splitLoop_next_shorter maxLen remaining hmax (by omega)
        exact ih _ (by omega) s hrest

/-- The fuel is irrelevant once it covers the remaining length: the loop
really terminates. -/
theorem splitLoop_fuel (maxLen : Nat) (hmax : 1 ≤ maxLen) :
    ∀ fuel₁ fuel₂ remaining, remaining.length ≤ fuel₁ → remaining.length ≤ fuel₂ →
      splitLoop maxLen fuel₁ remaining = splitLoop maxLen fuel₂ remaining := by
  intro fuel₁
  induction fuel₁ with
  | zero =>
    intro fuel₂ remaining h1 h2
    have h0 : remaining.length = 0 := Nat.le_zero.mp h1
    cases fuel₂ with
    | zero => rfl
    | succ f₂ => rw [splitLoop, splitLoop, if_pos (by omega : remaining.length ≤ maxLen)]
  | succ f₁ ih =>
    intro fuel₂ remaining h1 h2
    cases fuel₂ with
    | zero =>
      have h0 : remaining.length = 0 := Nat.le_zero.mp h2
      rw [splitLoop, splitLoop, if_pos (by omega : remaining.length ≤ maxLen)]
    | succ f₂ =>
      rw [splitLoop]
      conv_rhs => rw [splitLoop]
      split
      · rfl
      · rename_i hlong
        have hdec := splitLoop_next_shorter maxLen remaining hmax (by omega)
        rw [ih f₂ _ (by omega) (by omega)]

/-- If the remaining text carries no leading whitespace, every segment the
loop produces from it is non-empty. -/
theorem splitLoop_segments_ne_nil (maxLen : Nat) (hmax : 1 ≤ maxLen) :
    ∀ fuel remaining, jsTrimStart remaining = remaining →
      ∀ s ∈ splitLoop maxLen fuel remaining, s ≠ [] := by
  intro fuel
  induction fuel with
  | zero =>
    intro remaining htrim s hs
    rw [splitLoop] at hs
    split at hs
    · exact absurd hs (List.not_mem_nil s)
    · rename_i hne
      rw [List.mem_singleton.mp hs]
      intro hnil
      rw [hnil] at hne
      exact hne rfl
  | succ f ih =>
    intro remaining htrim s hs
    rw [splitLoop] at hs
    split at hs
    · split at hs
      · exact absurd hs (List.not_mem_nil s)
      · rename_i hne
        rw [List.mem_singleton.mp hs]
        intro hnil
        rw [hnil] at hne
        exact hne rfl
    · rename_i hlong
      rcases List.mem_cons.mp hs with hchunk | hrest
      · have hne : remaining ≠ [] := by
          intro h0
          rw [h0] at hlong
          simp at hlong
        obtain ⟨c, rest, hrem⟩ := List.exists_cons_of_ne_nil hne
        subst hrem
        have hc := trimStart_head_not_ws c rest htrim
        have hcutpos := cutIndex_pos (c :: rest) maxLen hmax
        obtain ⟨k, hk⟩ : ∃ k, cutIndex (c :: rest) maxLen = k + 1 :=
          ⟨cutIndex (c :: rest) maxLen - 1, by omega⟩
        rw [hchunk, hk, List.take_succ_cons]
        exact jsTrim_cons_ne_nil c _ hc
      · exact ih _ (jsTrimStart_idem _) s hrest

/-- Each loop iteration removes at least `⌈0.6 * maxLen⌉ = (3 * maxLen + 4) / 5`
characters, stated multiplicatively. -/
theorem splitLoopIters_mul_le (maxLen : Nat) (hmax : 1 ≤ maxLen) :
    ∀ fuel remaining, remaining.length ≤ fuel →
      splitLoopIters maxLen fuel remaining * ((3 * maxLen + 4) / 5) ≤
        remaining.length + ((3 * maxLen + 4) / 5) - 1 := by
  intro fuel
  induction fuel with
  | zero =>
    intro remaining hr
    rw [splitLoopIters]
    omega
  | succ f ih =>
    intro remaining hr
    rw [splitLoopIters]
    split
    · omega
    · rename_i hlong
      have hdec := splitLoop_next_shorter maxLen remaining hmax (by omega)
      have hcut := cutIndex_ge remaining maxLen hmax
      have hdrop : (remaining.drop (cutIndex remaining maxLen)).length =
          remaining.length - cutIndex remaining maxLen := List.length_drop _ _
      have htrim : (jsTrimStart (remaining.drop (cutIndex remaining maxLen))).length ≤
          (remaining.drop (cutIndex remaining maxLen)).length := jsTrimStart_length_le _
      have hih := ih (jsTrimStart (remaining.drop (cutIndex remaining maxLen))) (by omega)
      rw [Nat.succ_mul]
      omega

/-- The loop performs at most `⌈length / (0.6 * maxLen)⌉` iterations, where
the ceiling is written as `(5 * length + 3 * maxLen - 1) / (3 * maxLen)`. -/
theorem splitLoopIters_le_ceil (maxLen : Nat) (hmax : 1 ≤ maxLen)
    (fuel : Nat) (remaining : List Char) (hr : remaining.length ≤ fuel) :
    splitLoopIters maxLen fuel remaining ≤
      (5 * remaining.length + 3 * maxLen - 1) / (3 * maxLen) := by
  have h1 := splitLoopIters_mul_le maxLen hmax fuel remaining hr
  have h5 : 3 * maxLen ≤ 5 * ((3 * maxLen + 4) / 5) := by omega
  have h6 : 5 * ((3 * maxLen + 4) / 5) ≤ 3 * maxLen + 4 := by omega
  rw [Nat.le_div_iff_mul_le (by omega : 0 < 3 * maxLen)]
  calc splitLoopIters maxLen fuel remaining * (3 * maxLen)
      ≤ splitLoopIters maxLen fuel remaining * (5 * ((3 * maxLen + 4) / 5)) :=
        Nat.mul_le_mul (le_refl _) h5
    _ = 5 * (splitLoopIters maxLen fuel remaining * ((3 * maxLen + 4) / 5)) := by ring
    _ ≤ 5 * (remaining.length + ((3 * maxLen + 4) / 5) - 1) := Nat.mul_le_mul (le_refl 5) h1
    _ ≤ 5 * remaining.length + 3 * maxLen - 1 := by omega

/-! Claims C6 and C7, about the reply chunker. -/

/-- C6 counterexample: a text of length at most `maxLength` is returned as the
single segment UNTRIMMED (the source returns `[text]` as is), so the claimed
"exactly one segment equal to the trimmed input" fails on any short text with
surrounding whitespace. -/
theorem splitForTelegram_short_not_trimmed :
    (" a ".data).length ≤ 200 ∧ splitForTelegram " a ".data 200 ≠ [jsTrim " a ".data] := by
  decide

/-- C6 (amended): for every positive `maxLen`, every segment returned by
`splitForTelegram` has length at most `maxLen`, and a text of length at most
`maxLen` yields exactly one segment equal to the input itself (not trimmed). -/
theorem splitForTelegram_segment_bounds (text : List Char) (maxLen : Nat) (hmax : 1 ≤ maxLen) :
    (∀ s ∈ splitForTelegram text maxLen, s.length ≤ maxLen) ∧
    (text.length ≤ maxLen → splitForTelegram text maxLen = [text]) := by
  constructor
  · intro s hs
    unfold splitForTelegram at hs
    split at hs
    · rename_i hshort
      rw [List.mem_singleton.mp hs]
      exact hshort
    · exact splitLoop_length_le maxLen hmax text.length text (le_refl _) s hs
  · intro h
    unfold splitForTelegram
    rw [if_pos h]

/-- Witness for `splitForTelegram_segment_bounds` at a concrete input. -/
theorem splitForTelegram_segment_bounds_witness :
    (∀ s ∈ splitForTelegram "ab cd\nef gh ij".data 6, s.length ≤ 6) ∧
    (("ab cd\nef gh ij".data).length ≤ 6 →
      splitForTelegram "ab cd\nef gh ij".data 6 = ["ab cd\nef gh ij".data]) :=
  splitForTelegram_segment_bounds "ab cd\nef gh ij".data 6 (by decide)

/-- C7 counterexample: on a non-empty all-whitespace text longer than
`maxLength`, the chunker returns a zero-length segment (the hard-cut prefix is
trimmed away to the empty string before being pushed). -/
theorem splitForTelegram_zero_length_segment :
    (List.replicate 201 ' ' : List Char) ≠ [] ∧
    [] ∈ splitForTelegram (List.replicate 201 ' ') 200 := by
  decide

/-- C7 (amended): for every positive `maxLen` and non-empty text, every
returned segment except possibly the first is non-empty (a zero-length segment
can only arise as the first segment, when the leading characters up to the
first cut are all whitespace); the loop is insensitive to any fuel of at least
`text.length` (so it terminates), and it performs at most
`⌈length / (0.6 * maxLen)⌉ = (5 * length + 3 * maxLen - 1) / (3 * maxLen)`
iterations. -/
theorem splitForTelegram_progress_termination (text : List Char) (maxLen : Nat)
    (hmax : 1 ≤ maxLen) (htext : text ≠ []) :
    (∀ s ∈ (splitForTelegram text maxLen).drop 1, s ≠ []) ∧
    (∀ fuel, text.length ≤ fuel →
      splitLoop maxLen fuel text = splitLoop maxLen text.length text) ∧
    (∀ fuel, text.length ≤ fuel →
      splitLoopIters maxLen fuel text ≤
        (5 * text.length + 3 * maxLen - 1) / (3 * maxLen)) := by
  refine ⟨?_, ?_, ?_⟩
  · unfold splitForTelegram
    split
    · simp
    · rename_i hlong
      obtain ⟨f, hf⟩ : ∃ f, text.length = f + 1 := ⟨text.length - 1, by
        have : text.length ≠ 0 := fun h0 => htext (List.length_eq_zero.mp h0)
        omega⟩
      rw [hf, splitLoop, if_neg hlong]
      simp only [List.drop_one, List.tail_cons]
      exact splitLoop_segments_ne_nil maxLen hmax f _ (jsTrimStart_idem _)
  · intro fuel hfuel
    exact splitLoop_fuel maxLen hmax fuel text.length text hfuel (le_refl _)
  · intro fuel hfuel
    exact splitLoopIters_le_ceil maxLen hmax fuel text hfuel

/-- Witness for `splitForTelegram_progress_termination` at a concrete input. -/
theorem splitForTelegram_progress_termination_witness :
    (∀ s ∈ (splitForTelegram "abcdefgh".data 5).drop 1, s ≠ []) ∧
    (∀ fuel, ("abcdefgh".data).length ≤ fuel →
      splitLoop 5 fuel "abcdefgh".data = splitLoop 5 ("abcdefgh".data).length "abcdefgh".data) ∧
    (∀ fuel, ("abcdefgh".data).length ≤ fuel →
      splitLoopIters 5 fuel "abcdefgh".data ≤
        (5 * ("abcdefgh".data).length + 3 * 5 - 1) / (3 * 5)) :=
  splitForTelegram_progress_termination "abcdefgh".data 5 (by decide) (by decide)

/-! Claim C10, about the chat allow-list. -/

/-- C10: when the configured allow-list of chat ids is empty, `isAuthorized`
returns true for every incoming update (any chat id, or none at all);
the `else` branch, which restricts access, is reached only when the allow-list
is non-empty. -/
theorem isAuthorized_empty_allowlist (chatId : Option Int) :
    isAuthorized [] chatId = true := rfl

/-!
Model of `runCodexTurn` from the codex runner source.

The subprocess is modelled by what the runner observes of it: whether the
exit-wait promise rejected (the child emitted an `error` event, e.g. a spawn
failure), the exit code otherwise, the interleaved trimmed-line streams of
standard output and standard error in arrival order, and the contents of the
final-message file (`none` when reading it fails). `JSON.parse` combined with
the shape checks on the parsed object is abstracted as a parameter
`parse : String → Option CodexEvent`; a line on which it returns `none` is a
malformed (non-JSON) line.
-/

/-- The fields of a parsed structured event that `runCodexTurn` inspects:
`event.type`, `event.thread_id`, `event.message` and `event.error?.message`.
A field that is absent or not a string is `none`. -/
structure CodexEvent where
  type : Option String
  thread_id : Option String
  message : Option String
  errorMessage : Option String
deriving DecidableEq

inductive StreamSource where
  | stdout
  | stderr
deriving DecidableEq

/-- The mutable captures of `runCodexTurn`: `sessionId` (initialised from the
input), `jsonErrors`, `stderrLines` and `stdoutLines`. -/
structure ConsumeState where
  sessionId : Option String
  jsonErrors : List String
  stderrLines : List String
  stdoutLines : List String
deriving DecidableEq

/-- Pushing a trimmed non-empty line onto the stream list for its source. -/
def recordLine (st : ConsumeState) (src : StreamSource) (t : String) : ConsumeState :=
  match src with
  | .stderr => { st with stderrLines := st.stderrLines ++ [t] }
  | .stdout => { st with stdoutLines := st.stdoutLines ++ [t] }

/-- The three event checks of `consumeLine`, applied in source order:
a later `thread.started` overwrites the session id; `error` and `turn.failed`
events append their messages to the captured JSON errors. -/
def applyEvent (st : ConsumeState) (e : CodexEvent) : ConsumeState :=
  let st1 :=
    match e.type, e.thread_id with
    | some ty, some tid =>
      if ty = "thread.started" then { st with sessionId := some tid } else st
    | _, _ => st
  let st2 :=
    match e.type, e.message with
    | some ty, some m =>
      if ty = "error" then { st1 with jsonErrors := st1.jsonErrors ++ [m] } else st1
    | _, _ => st1
  match e.type, e.errorMessage with
  | some ty, some m =>
    if ty = "turn.failed" then { st2 with jsonErrors := st2.jsonErrors ++ [m] } else st2
  | _, _ => st2

/-- Model of `consumeLine`: trim; drop blank lines; record the trimmed line on
its stream; then, when the line parses as a structured event, apply it
(non-JSON lines are ignored apart from the stream record). -/
def consumeLine (parse : String → Option CodexEvent) (st : ConsumeState)
    (src : StreamSource) (line : String) : ConsumeState :=
  let t := jsTrimS line
  if t = "" then st
  else
    match parse t with
    | none => recordLine st src t
    | some e => applyEvent (recordLine st src t) e

/-- Folding `consumeLine` over the observed stream lines in arrival order. -/
def consumeAll (parse : String → Option CodexEvent) (st : ConsumeState)
    (lines : List (StreamSource × String)) : ConsumeState :=
  lines.foldl (fun st p => consumeLine parse st p.1 p.2) st

/-- Model of `CodexTurnInput`. -/
structure CodexTurnInput where
  prompt : String
  sessionId : Option String
  imagePaths : List String
deriving DecidableEq

/-- Model of `CodexTurnResult`. -/
structure CodexTurnResult where
  reply : String
  sessionId : Option String
deriving DecidableEq

/-- What the runner observes of the subprocess and the filesystem during one
turn. When `spawnErrorMsg = some m`, the `error` event fired and the awaited
exit promise rejects with message `m` before any exit code is produced. -/
structure ProcObservation where
  spawnErrorMsg : Option String
  exitCode : Int
  lines : List (StreamSource × String)
  finalMessageFile : Option String
deriving DecidableEq

/-- The fixed fallback placeholder reply. -/
def fallbackReply : String := "Codex completed but returned an empty message."

/-- The candidate reply text: the trimmed contents of the final-message file,
or the empty string when reading the file fails. -/
def candidateReply (obs : ProcObservation) : String :=
  match obs.finalMessageFile with
  | some c => jsTrimS c
  | none => ""

/-- The initial capture state of a turn: the session id starts as the
session id passed in the input (`let sessionId = input.sessionId`). -/
def initialConsumeState (input : CodexTurnInput) : ConsumeState :=
  { sessionId := input.sessionId, jsonErrors := [], stderrLines := [], stdoutLines := [] }

/-- The part of `runCodexTurn` that runs after the subprocess has exited:
read the final-message file, and either fail with the best available
diagnostic (`jsonErrors.at(-1) ?? stderrLines.at(-1) ?? stdoutLines.at(-1) ??`
the generic message) or succeed with the candidate reply (or the fallback
placeholder) and the captured session id. -/
def runCodexTurnAfterExit (parse : String → Option CodexEvent) (input : CodexTurnInput)
    (obs : ProcObservation) : Except String CodexTurnResult :=
  let st := consumeAll parse (initialConsumeState input) obs.lines
  let reply := candidateReply obs
  if obs.exitCode ≠ 0 ∧ reply = "" then
    Except.error
      ((st.jsonErrors.getLast?).getD
        ((st.stderrLines.getLast?).getD
          ((st.stdoutLines.getLast?).getD
            ("Codex process exited with code " ++ toString obs.exitCode))))
  else
    Except.ok
      { reply := if reply = "" then fallbackReply else reply
        sessionId := st.sessionId }

/-- Model of the whole `runCodexTurn` control flow. The second component of
the pair records whether `fs.rm(tempDir, ...)` ran before the call returned
or threw. When the exit-wait promise rejects (spawn failure), the rejection
propagates out of the function before the removal line is reached: there is
no try/finally around it in the source. -/
def runCodexTurn (parse : String → Option CodexEvent) (input : CodexTurnInput)
    (obs : ProcObservation) : Except String CodexTurnResult × Bool :=
  match obs.spawnErrorMsg with
  | some m => (Except.error m, false)
  | none => (runCodexTurnAfterExit parse input obs, true)

/-! Specification-side recomputations of the captures, defined directly on
the line stream rather than by the fold; the lemmas below identify the two. -/

/-- The session id carried by one structured event, if it is a
`thread.started` event with a string thread id. -/
def eventThreadId (e : CodexEvent) : Option String :=
  match e.type, e.thread_id with
  | some ty, some tid => if ty = "thread.started" then some tid else none
  | _, _ => none

/-- The error messages carried by one structured event. -/
def eventErrors (e : CodexEvent) : List String :=
  (match e.type, e.message with
   | some ty, some m => if ty = "error" then [m] else []
   | _, _ => []) ++
  (match e.type, e.errorMessage with
   | some ty, some m => if ty = "turn.failed" then [m] else []
   | _, _ => [])

/-- The session id reported by one line, if any. -/
def lineThreadId (parse : String → Option CodexEvent) (line : String) : Option String :=
  if jsTrimS line = "" then none
  else
    match parse (jsTrimS line) with
    | none => none
    | some e => eventThreadId e

/-- The error messages reported by one line. -/
def lineErrors (parse : String → Option CodexEvent) (line : String) : List String :=
  if jsTrimS line = "" then []
  else
    match parse (jsTrimS line) with
    | none => []
    | some e => eventErrors e

/-- All captured structured error messages of the stream, in order. -/
def capturedJsonErrors (parse : String → Option CodexEvent)
    (lines : List (StreamSource × String)) : List String :=
  lines.flatMap (fun p => lineErrors parse p.2)

/-- The last session id reported by any `thread.started` event of the stream. -/
def lastThreadStarted (parse : String → Option CodexEvent)
    (lines : List (StreamSource × String)) : Option String :=
  (lines.filterMap (fun p => lineThreadId parse p.2)).getLast?

/-- The trimmed non-empty lines of one stream, in order. -/
def trimmedStreamLines (src : StreamSource) (lines : List (StreamSource × String)) :
    List String :=
  (lines.filter (fun p => p.1 == src && !(jsTrimS p.2 == ""))).map (fun p => jsTrimS p.2)

/-- First-some choice on options, as produced by the `??` chains. -/
def orElseOpt (a b : Option String) : Option String :=
  match a with
  | some x => some x
  | none => b

/-- Whether the turn failed (the promise returned by `runCodexTurn` rejected). -/
def turnFailed (r : Except String CodexTurnResult) : Bool :=
  match r with
  | .error _ => true
  | .ok _ => false

/-- A line that is non-blank after trimming and parses as a structured event;
all other lines are blank or malformed. -/
def isStructuredLine (parse : String → Option CodexEvent) (p : StreamSource × String) : Bool :=
  !(jsTrimS p.2 == "") && (parse (jsTrimS p.2)).isSome

/-! Lemmas identifying the folded capture state with the specification-side
recomputations. -/

theorem recordLine_sessionId (st : ConsumeState) (src : StreamSource) (t : String) :
    (recordLine st src t).sessionId = st.sessionId := by
  cases src <;> rfl

theorem recordLine_jsonErrors (st : ConsumeState) (src : StreamSource) (t : String) :
    (recordLine st src t).jsonErrors = st.jsonErrors := by
  cases src <;> rfl

theorem recordLine_stderrLines (st : ConsumeState) (src : StreamSource) (t : String) :
    (recordLine st src t).stderrLines =
      st.stderrLines ++ (if src == StreamSource.stderr then [t] else []) := by
  cases src <;> simp [recordLine]

theorem recordLine_stdoutLines (st : ConsumeState) (src : StreamSource) (t : String) :
    (recordLine st src t).stdoutLines =
      st.stdoutLines ++ (if src == StreamSource.stdout then [t] else []) := by
  cases src <;> simp [recordLine]

theorem applyEvent_sessionId (st : ConsumeState) (e : CodexEvent) :
    (applyEvent st e).sessionId = orElseOpt (eventThreadId e) st.sessionId := by
  rcases e with ⟨ty, tid, msg, emsg⟩
  cases ty <;> cases tid <;> cases msg <;> cases emsg <;>
    simp only [applyEvent, eventThreadId, orElseOpt] <;>
    split_ifs <;> rfl

theorem applyEvent_jsonErrors (st : ConsumeState) (e : CodexEvent) :
    (applyEvent st e).jsonErrors = st.jsonErrors ++ eventErrors e := by
  rcases e with ⟨ty, tid, msg, emsg⟩
  cases ty <;> cases tid <;> cases msg <;> cases emsg <;>
    simp only [applyEvent, eventErrors] <;>
    first
      | (split_ifs <;> simp)
      | simp

theorem applyEvent_stderrLines (st : ConsumeState) (e : CodexEvent) :
    (applyEvent st e).stderrLines = st.stderrLines := by
  rcases e with ⟨ty, tid, msg, emsg⟩
  cases ty <;> cases tid <;> cases msg <;> cases emsg <;>
    simp only [applyEvent] <;>
    split_ifs <;> rfl

theorem applyEvent_stdoutLines (st : ConsumeState) (e : CodexEvent) :
    (applyEvent st e).stdoutLines = st.stdoutLines := by
  rcases e with ⟨ty, tid, msg, emsg⟩
  cases ty <;> cases tid <;> cases msg <;> cases emsg <;>
    simp only [applyEvent] <;>
    split_ifs <;> rfl

theorem consumeLine_sessionId (parse : String → Option CodexEvent) (st : ConsumeState)
    (src : StreamSource) (line : String) :
    (consumeLine parse st src line).sessionId =
      orElseOpt (lineThreadId parse line) st.sessionId := by
  unfold consumeLine lineThreadId
  by_cases h : jsTrimS line = ""
  · simp [h, orElseOpt]
  · simp only [if_neg h]
    cases parse (jsTrimS line) with
    | none => simp [orElseOpt, recordLine_sessionId]
    | some e => rw [applyEvent_sessionId, recordLine_sessionId]

theorem consumeLine_jsonErrors (parse : String → Option CodexEvent) (st : ConsumeState)
    (src : StreamSource) (line : String) :
    (consumeLine parse st src line).jsonErrors =
      st.jsonErrors ++ lineErrors parse line := by
  unfold consumeLine lineErrors
  by_cases h : jsTrimS line = ""
  · simp [h]
  · simp only [if_neg h]
    cases parse (jsTrimS line) with
    | none => simp [recordLine_jsonErrors]
    | some e => rw [applyEvent_jsonErrors, recordLine_jsonErrors]

theorem consumeLine_stderrLines (parse : String → Option CodexEvent) (st : ConsumeState)
    (src : StreamSource) (line : String) :
    (consumeLine parse st src line).stderrLines =
      st.stderrLines ++
        (if src == StreamSource.stderr && !(jsTrimS line == "") then [jsTrimS line] else []) := by
  unfold consumeLine
  by_cases h : jsTrimS line = ""
  · simp [h]
  · have hb : (jsTrimS line == "") = false := by simp [h]
    simp only [if_neg h, hb]
    cases parse (jsTrimS line) with
    | none => simp [recordLine_stderrLines]
    | some e => rw [applyEvent_stderrLines, recordLine_stderrLines]; simp

theorem consumeLine_stdoutLines (parse : String → Option CodexEvent) (st : ConsumeState)
    (src : StreamSource) (line : String) :
    (consumeLine parse st src line).stdoutLines =
      st.stdoutLines ++
        (if src == StreamSource.stdout && !(jsTrimS line == "") then [jsTrimS line] else []) := by
  unfold consumeLine
  by_cases h : jsTrimS line = ""
  · simp [h]
  · have hb : (jsTrimS line == "") = false := by simp [h]
    simp only [if_neg h, hb]
    cases parse (jsTrimS line) with
    | none => simp [recordLine_stdoutLines]
    | some e => rw [applyEvent_stdoutLines, recordLine_stdoutLines]; simp

theorem consumeAll_cons (parse : String → Option CodexEvent) (st : ConsumeState)
    (p : StreamSource × String) (rest : List (StreamSource × String)) :
    consumeAll parse st (p :: rest) = consumeAll parse (consumeLine parse st p.1 p.2) rest := rfl

theorem orElseOpt_assoc (a b c : Option String) :
    orElseOpt (orElseOpt a b) c = orElseOpt a (orElseOpt b c) := by
  cases a <;> rfl

theorem getLast?_cons_orElse (a : String) (l : List String) :
    (a :: l).getLast? = orElseOpt l.getLast? (some a) := by
  cases l with
  | nil => rfl
  | cons b m =>
    rw [List.getLast?_cons_cons]
    cases h : (b :: m).getLast? with
    | none =>
      exact absurd (List.getLast?_isSome.mpr (List.cons_ne_nil b m)) (by simp [h])
    | some x => rfl

theorem consumeAll_jsonErrors (parse : String → Option CodexEvent)
    (lines : List (StreamSource × String)) : ∀ st : ConsumeState,
    (consumeAll parse st lines).jsonErrors =
      st.jsonErrors ++ capturedJsonErrors parse lines := by
  induction lines with
  | nil => intro st; simp [consumeAll, capturedJsonErrors]
  | cons p rest ih =>
    intro st
    rw [consumeAll_cons, ih, consumeLine_jsonErrors]
    simp [capturedJsonErrors]

theorem consumeAll_sessionId (parse : String → Option CodexEvent)
    (lines : List (StreamSource × String)) : ∀ st : ConsumeState,
    (consumeAll parse st lines).sessionId =
      orElseOpt (lastThreadStarted parse lines) st.sessionId := by
  induction lines with
  | nil => intro st; simp [consumeAll, lastThreadStarted, orElseOpt]
  | cons p rest ih =>
    intro st
    rw [consumeAll_cons, ih, consumeLine_sessionId]
    unfold lastThreadStarted
    rw [List.filterMap_cons]
    cases h : lineThreadId parse p.2 with
    | none => simp [orElseOpt]
    | some tid =>
      rw [getLast?_cons_orElse, orElseOpt_assoc]

theorem consumeAll_stderrLines (parse : String → Option CodexEvent)
    (lines : List (StreamSource × String)) : ∀ st : ConsumeState,
    (consumeAll parse st lines).stderrLines =
      st.stderrLines ++ trimmedStreamLines StreamSource.stderr lines := by
  induction lines with
  | nil => intro st; simp [consumeAll, trimmedStreamLines]
  | cons p rest ih =>
    intro st
    rw [consumeAll_cons, ih, consumeLine_stderrLines]
    unfold trimmedStreamLines
    rw [List.filter_cons]
    by_cases h : (p.1 == StreamSource.stderr && !(jsTrimS p.2 == "")) = true
    · simp [h]
    · simp only [Bool.not_eq_true] at h
      simp [h]

theorem consumeAll_stdoutLines (parse : String → Option CodexEvent)
    (lines : List (StreamSource × String)) : ∀ st : ConsumeState,
    (consumeAll parse st lines).stdoutLines =
      st.stdoutLines ++ trimmedStreamLines StreamSource.stdout lines := by
  induction lines with
  | nil => intro st; simp [consumeAll, trimmedStreamLines]
  | cons p rest ih =>
    intro st
    rw [consumeAll_cons, ih, consumeLine_stdoutLines]
    unfold trimmedStreamLines
    rw [List.filter_cons]
    by_cases h : (p.1 == StreamSource.stdout && !(jsTrimS p.2 == "")) = true
    · simp [h]
    · simp only [Bool.not_eq_true] at h
      simp [h]

theorem lineThreadId_not_structured (parse : String → Option CodexEvent)
    (p : StreamSource × String) (h : isStructuredLine parse p = false) :
    lineThreadId parse p.2 = none := by
  unfold isStructuredLine at h
  unfold lineThreadId
  by_cases ht : jsTrimS p.2 = ""
  · rw [if_pos ht]
  · rw [if_neg ht]
    have hb : (jsTrimS p.2 == "") = false := by simp [ht]
    rw [hb] at h
    simp only [Bool.not_false, Bool.true_and] at h
    cases hp : parse (jsTrimS p.2) with
    | none => rfl
    | some e => rw [hp] at h; simp at h

theorem lineErrors_not_structured (parse : String → Option CodexEvent)
    (p : StreamSource × String) (h : isStructuredLine parse p = false) :
    lineErrors parse p.2 = [] := by
  unfold isStructuredLine at h
  unfold lineErrors
  by_cases ht : jsTrimS p.2 = ""
  · rw [if_pos ht]
  · rw [if_neg ht]
    have hb : (jsTrimS p.2 == "") = false := by simp [ht]
    rw [hb] at h
    simp only [Bool.not_false, Bool.true_and] at h
    cases hp : parse (jsTrimS p.2) with
    | none => rfl
    | some e => rw [hp] at h; simp at h

theorem lastThreadStarted_filter_structured (parse : String → Option CodexEvent)
    (lines : List (StreamSource × String)) :
    lastThreadStarted parse (lines.filter (isStructuredLine parse)) =
      lastThreadStarted parse lines := by
  unfold lastThreadStarted
  congr 1
  induction lines with
  | nil => rfl
  | cons p rest ih =>
    rw [List.filter_cons]
    by_cases h : isStructuredLine parse p = true
    · rw [if_pos (by simp [h]), List.filterMap_cons, List.filterMap_cons]
      cases lineThreadId parse p.2 <;> rw [ih]
    · have hf : isStructuredLine parse p = false := by
        cases hh : isStructuredLine parse p
        · rfl
        · exact absurd hh h
      rw [if_neg (by simp [hf]), List.filterMap_cons,
        lineThreadId_not_structured parse p hf, ih]

theorem capturedJsonErrors_filter_structured (parse : String → Option CodexEvent)
    (lines : List (StreamSource × String)) :
    capturedJsonErrors parse (lines.filter (isStructuredLine parse)) =
      capturedJsonErrors parse lines := by
  unfold capturedJsonErrors
  induction lines with
  | nil => rfl
  | cons p rest ih =>
    rw [List.filter_cons]
    by_cases h : isStructuredLine parse p = true
    · rw [if_pos (by simp [h]), List.flatMap_cons, List.flatMap_cons, ih]
    · have hf : isStructuredLine parse p = false := by
        cases hh : isStructuredLine parse p
        · rfl
        · exact absurd hh h
      rw [if_neg (by simp [hf]), List.flatMap_cons,
        lineErrors_not_structured parse p hf, ih]
      rfl

/-! Claims C2, C3, C4, C5 and C8, about the turn executor. -/

/-- C2: when the subprocess exits normally, the turn fails exactly when the
exit status is non-zero and the trimmed final-message file is empty, and in
that case the error message is, in priority order: the most recently captured
structured error message, else the last non-empty stderr line, else the last
non-empty stdout line, else the generic message naming the exit code. -/
theorem runCodexTurn_failure_rule (parse : String → Option CodexEvent)
    (input : CodexTurnInput) (obs : ProcObservation)
    (hspawn : obs.spawnErrorMsg = none) :
    (turnFailed (runCodexTurn parse input obs).1 = true ↔
      obs.exitCode ≠ 0 ∧ candidateReply obs = "") ∧
    (obs.exitCode ≠ 0 → candidateReply obs = "" →
      (runCodexTurn parse input obs).1 = Except.error
        (((capturedJsonErrors parse obs.lines).getLast?).getD
          (((trimmedStreamLines StreamSource.stderr obs.lines).getLast?).getD
            (((trimmedStreamLines StreamSource.stdout obs.lines).getLast?).getD
              ("Codex process exited with code " ++ toString obs.exitCode))))) := by
  obtain ⟨sp, code, lines, file⟩ := obs
  dsimp only at hspawn ⊢
  subst hspawn
  have hj : (consumeAll parse (initialConsumeState input) lines).jsonErrors =
      capturedJsonErrors parse lines := by
    rw [consumeAll_jsonErrors]; rfl
  have he : (consumeAll parse (initialConsumeState input) lines).stderrLines =
      trimmedStreamLines StreamSource.stderr lines := by
    rw [consumeAll_stderrLines]; rfl
  have ho : (consumeAll parse (initialConsumeState input) lines).stdoutLines =
      trimmedStreamLines StreamSource.stdout lines := by
    rw [consumeAll_stdoutLines]; rfl
  simp only [runCodexTurn, runCodexTurnAfterExit]
  by_cases hcond : code ≠ 0 ∧ candidateReply ⟨none, code, lines, file⟩ = ""
  · rw [if_pos hcond]
    constructor
    · simp [turnFailed, hcond]
    · intro _ _
      rw [hj, he, ho]
  · rw [if_neg hcond]
    constructor
    · simp [turnFailed, hcond]
    · intro h1 h2
      exact absurd ⟨h1, h2⟩ hcond

/-- Witness for `runCodexTurn_failure_rule`: exit code 1, empty final-message
file, last stderr line "rate limited", no structured errors. -/
theorem runCodexTurn_failure_rule_witness :
    (turnFailed (runCodexTurn (fun _ => none) ⟨"p", none, []⟩
        ⟨none, 1, [(StreamSource.stderr, "rate limited")], some " "⟩).1 = true ↔
      (1 : Int) ≠ 0 ∧
        candidateReply ⟨none, 1, [(StreamSource.stderr, "rate limited")], some " "⟩ = "") ∧
    ((1 : Int) ≠ 0 →
      candidateReply ⟨none, 1, [(StreamSource.stderr, "rate limited")], some " "⟩ = "" →
      (runCodexTurn (fun _ => none) ⟨"p", none, []⟩
          ⟨none, 1, [(StreamSource.stderr, "rate limited")], some " "⟩).1 = Except.error
        (((capturedJsonErrors (fun _ => none)
            [(StreamSource.stderr, "rate limited")]).getLast?).getD
          (((trimmedStreamLines StreamSource.stderr
              [(StreamSource.stderr, "rate limited")]).getLast?).getD
            (((trimmedStreamLines StreamSource.stdout
                [(StreamSource.stderr, "rate limited")]).getLast?).getD
              ("Codex process exited with code " ++ toString (1 : Int)))))) :=
  runCodexTurn_failure_rule (fun _ => none) ⟨"p", none, []⟩
    ⟨none, 1, [(StreamSource.stderr, "rate limited")], some " "⟩ rfl

/-- C3: when the exit status is zero, or the trimmed final-message file is
non-empty even with a non-zero exit status, the turn succeeds and the reply is
the trimmed file contents, with the fixed fallback placeholder substituted
when they are empty. -/
theorem runCodexTurn_success_reply (parse : String → Option CodexEvent)
    (input : CodexTurnInput) (obs : ProcObservation)
    (hspawn : obs.spawnErrorMsg = none)
    (hok : obs.exitCode = 0 ∨ candidateReply obs ≠ "") :
    ∃ r, (runCodexTurn parse input obs).1 = Except.ok r ∧
      r.reply = (if candidateReply obs = "" then fallbackReply else candidateReply obs) := by
  obtain ⟨sp, code, lines, file⟩ := obs
  dsimp only at hspawn hok ⊢
  subst hspawn
  have hcond : ¬(code ≠ 0 ∧ candidateReply ⟨none, code, lines, file⟩ = "") := by
    rcases hok with h | h
    · exact fun hc => hc.1 h
    · exact fun hc => h hc.2
  simp only [runCodexTurn, runCodexTurnAfterExit]
  rw [if_neg hcond]
  exact ⟨_, rfl, rfl⟩

/-- Witness for `runCodexTurn_success_reply`: exit code 1 with final-message
file containing "partial answer" still succeeds with that reply. -/
theorem runCodexTurn_success_reply_witness :
    ∃ r, (runCodexTurn (fun _ => none) ⟨"p", none, []⟩
        ⟨none, 1, [], some "partial answer"⟩).1 = Except.ok r ∧
      r.reply = (if candidateReply ⟨none, 1, [], some "partial answer"⟩ = ""
        then fallbackReply else candidateReply ⟨none, 1, [], some "partial answer"⟩) :=
  runCodexTurn_success_reply (fun _ => none) ⟨"p", none, []⟩
    ⟨none, 1, [], some "partial answer"⟩ rfl (Or.inr (by decide))

/-- C4 counterexample: on a turn whose subprocess reports no session at all
(no lines), a prior session id passed in the input is returned unchanged in
the result, so the returned `sessionId` is NOT absent — refuting the claim
that it is present only if the subprocess reported a session this turn. -/
theorem runCodexTurn_sessionId_counterexample :
    (runCodexTurn (fun _ => none) ⟨"p", some "S", []⟩ ⟨none, 0, [], some "hi"⟩).1 =
      Except.ok ⟨"hi", some "S"⟩ ∧
    lastThreadStarted (fun _ => none) ([] : List (StreamSource × String)) = none := by
  exact ⟨rfl, rfl⟩

/-- C4 (amended): on every successful turn the returned `sessionId` is the
session id of the last session-started event of the stream when there is one,
and otherwise the session id passed in the input (`let sessionId =
input.sessionId`); it is absent only when both are absent. -/
theorem runCodexTurn_sessionId_rule (parse : String → Option CodexEvent)
    (input : CodexTurnInput) (obs : ProcObservation)
    (hspawn : obs.spawnErrorMsg = none)
    (hok : obs.exitCode = 0 ∨ candidateReply obs ≠ "") :
    ∃ r, (runCodexTurn parse input obs).1 = Except.ok r ∧
      r.sessionId = orElseOpt (lastThreadStarted parse obs.lines) input.sessionId := by
  obtain ⟨sp, code, lines, file⟩ := obs
  dsimp only at hspawn hok ⊢
  subst hspawn
  have hcond : ¬(code ≠ 0 ∧ candidateReply ⟨none, code, lines, file⟩ = "") := by
    rcases hok with h | h
    · exact fun hc => hc.1 h
    · exact fun hc => h hc.2
  have hs : (consumeAll parse (initialConsumeState input) lines).sessionId =
      orElseOpt (lastThreadStarted parse lines) input.sessionId := by
    rw [consumeAll_sessionId]; rfl
  simp only [runCodexTurn, runCodexTurnAfterExit]
  rw [if_neg hcond]
  exact ⟨_, rfl, hs⟩

/-- Witness for `runCodexTurn_sessionId_rule`: a later session-started event
overrides both an earlier one and the input session id. -/
theorem runCodexTurn_sessionId_rule_witness :
    ∃ r, (runCodexTurn
        (fun s => if s = "e1" then some ⟨some "thread.started", some "S1", none, none⟩
          else if s = "e2" then some ⟨some "thread.started", some "S2", none, none⟩
          else none)
        ⟨"p", some "S0", []⟩
        ⟨none, 0, [(StreamSource.stdout, "e1"), (StreamSource.stdout, "e2")], some "hi"⟩).1 =
        Except.ok r ∧
      r.sessionId = orElseOpt (lastThreadStarted
        (fun s => if s = "e1" then some ⟨some "thread.started", some "S1", none, none⟩
          else if s = "e2" then some ⟨some "thread.started", some "S2", none, none⟩
          else none)
        [(StreamSource.stdout, "e1"), (StreamSource.stdout, "e2")]) (some "S0") :=
  runCodexTurn_sessionId_rule
    (fun s => if s = "e1" then some ⟨some "thread.started", some "S1", none, none⟩
      else if s = "e2" then some ⟨some "thread.started", some "S2", none, none⟩
      else none)
    ⟨"p", some "S0", []⟩
    ⟨none, 0, [(StreamSource.stdout, "e1"), (StreamSource.stdout, "e2")], some "hi"⟩
    rfl (Or.inl rfl)

/-- C5: the source has no try/finally around the exit-wait, so when the spawn
fails (the child error event rejects the awaited promise) the function throws
before the `fs.rm(tempDir, ...)` line is reached and the scratch directory is
NOT removed — evaluated here at a concrete spawn-failure observation, where
the cleanup flag of the model is `false`. -/
theorem runCodexTurn_spawn_error_no_cleanup :
    runCodexTurn (fun _ => none) ⟨"p", none, []⟩
        ⟨some "spawn codex ENOENT", 1, [], none⟩ =
      (Except.error "spawn codex ENOENT", false) := rfl

/-- C8: inserting malformed (non-JSON) or blank lines between the structured
event lines changes neither the captured session id, nor the captured
structured error messages, nor the success/failure outcome of the turn:
all three agree with those computed from the stream restricted to its
structured lines. -/
theorem runCodexTurn_malformed_lines_irrelevant (parse : String → Option CodexEvent)
    (input : CodexTurnInput) (obs : ProcObservation) :
    (consumeAll parse (initialConsumeState input) obs.lines).sessionId =
      (consumeAll parse (initialConsumeState input)
        (obs.lines.filter (isStructuredLine parse))).sessionId ∧
    (consumeAll parse (initialConsumeState input) obs.lines).jsonErrors =
      (consumeAll parse (initialConsumeState input)
        (obs.lines.filter (isStructuredLine parse))).jsonErrors ∧
    turnFailed (runCodexTurn parse input obs).1 =
      turnFailed (runCodexTurn parse input
        { obs with lines := obs.lines.filter (isStructuredLine parse) }).1 := by
  obtain ⟨sp, code, lines, file⟩ := obs
  dsimp only
  refine ⟨?_, ?_, ?_⟩
  · rw [consumeAll_sessionId, consumeAll_sessionId]
    rw [lastThreadStarted_filter_structured]
  · rw [consumeAll_jsonErrors, consumeAll_jsonErrors]
    rw [capturedJsonErrors_filter_structured]
  · cases sp with
    | some m => rfl
    | none =>
      simp only [runCodexTurn, runCodexTurnAfterExit, candidateReply]
      by_cases hcond : code ≠ 0 ∧ (match file with | some c => jsTrimS c | none => "") = ""
      · rw [if_pos hcond, if_pos hcond]
        simp [turnFailed]
      · rw [if_neg hcond, if_neg hcond]
        simp [turnFailed]

/-!
Model of the `SessionStore` session registry.

The durable document is modelled as the parsed flat string-to-string mapping
it serialises to (`JSON.stringify(Object.fromEntries(map))`), with `none`
standing for a missing file (ENOENT, treated as an empty registry). The
in-memory `Map` is an insertion-ordered association list; `Map.set` updates an
existing entry in place and appends otherwise, `Map.delete` removes the entry.
`persistNow` is the state after the queued persistence write completed, as the
claim assumes.
-/

/-- Model of `Map.prototype.set` (JavaScript insertion-order semantics). -/
def mapSet : List (String × String) → String → String → List (String × String)
  | [], k, v => [(k, v)]
  | (k2, v2) :: rest, k, v =>
    if k2 = k then (k2, v) :: rest else (k2, v2) :: mapSet rest k v

/-- Model of `Map.prototype.delete`. -/
def mapDelete : List (String × String) → String → List (String × String)
  | [], _ => []
  | (k2, v2) :: rest, k => if k2 = k then rest else (k2, v2) :: mapDelete rest k

structure SessionStoreState where
  loaded : Bool
  sessions : List (String × String)
  file : Option (List (String × String))
deriving DecidableEq

/-- Model of `SessionStore.loadOnce`: on first access, merge the durable
entries into the in-memory map, skipping entries whose session id is not a
non-empty string (`typeof sessionId === "string" && sessionId.length > 0`). -/
def loadOnce (s : SessionStoreState) : SessionStoreState :=
  if s.loaded then s
  else
    match s.file with
    | none => { s with loaded := true }
    | some entries =>
      { s with
        loaded := true
        sessions := entries.foldl
          (fun m p => if 0 < p.2.length then mapSet m p.1 p.2 else m) s.sessions }

/-- Model of `persistQueued` once the queued write completed: the durable
document is rewritten in full from the in-memory map. -/
def persistNow (s : SessionStoreState) : SessionStoreState :=
  { s with file := some s.sessions }

/-- Model of `SessionStore.get`. -/
def storeGet (s : SessionStoreState) (chatId : Int) :
    SessionStoreState × Option String :=
  let s1 := loadOnce s
  (s1, s1.sessions.lookup (toString chatId))

/-- Model of `SessionStore.set`, with the persisted write completed. -/
def storeSet (s : SessionStoreState) (chatId : Int) (sessionId : String) :
    SessionStoreState :=
  let s1 := loadOnce s
  persistNow { s1 with sessions := mapSet s1.sessions (toString chatId) sessionId }

/-- Model of `SessionStore.clear`, with the persisted write completed. -/
def storeClear (s : SessionStoreState) (chatId : Int) : SessionStoreState :=
  let s1 := loadOnce s
  persistNow { s1 with sessions := mapDelete s1.sessions (toString chatId) }

/-- A simulated process restart: a fresh store over the same durable file. -/
def restartStore (s : SessionStoreState) : SessionStoreState :=
  { loaded := false, sessions := [], file := s.file }

/-! Association-list lemmas for the session registry. -/

theorem mapSet_lookup_self : ∀ (m : List (String × String)) (k v : String),
    (mapSet m k v).lookup k = some v := by
  intro m
  induction m with
  | nil => intro k v; simp [mapSet, List.lookup]
  | cons p rest ih =>
    intro k v
    rcases p with ⟨k2, v2⟩
    rw [mapSet]
    by_cases h : k2 = k
    · subst h
      simp [List.lookup]
    · rw [if_neg h]
      have hb : (k == k2) = false := by
        simp [BEq.beq]
        exact fun hh => h hh.symm
      simp [List.lookup, hb, ih]

theorem mapSet_lookup_ne : ∀ (m : List (String × String)) (k k2 v2 : String),
    k ≠ k2 → (mapSet m k2 v2).lookup k = m.lookup k := by
  intro m
  induction m with
  | nil =>
    intro k k2 v2 hne
    have hb : (k == k2) = false := by simp [hne]
    simp [mapSet, List.lookup, hb]
  | cons p rest ih =>
    intro k k2 v2 hne
    rcases p with ⟨k3, v3⟩
    rw [mapSet]
    by_cases h : k3 = k2
    · subst h
      have hb : (k == k3) = false := by simp [hne]
      simp [List.lookup, hb]
    · rw [if_neg h]
      by_cases hk : k = k3
      · subst hk
        simp [List.lookup]
      · have hb : (k == k3) = false := by simp [hk]
        simp [List.lookup, hb, ih _ _ _ hne]

theorem mapSet_keys_subset : ∀ (m : List (String × String)) (k v x : String),
    x ∈ (mapSet m k v).map Prod.fst → x ∈ m.map Prod.fst ∨ x = k := by
  intro m
  induction m with
  | nil => intro k v x hx; simp [mapSet] at hx; exact Or.inr hx
  | cons p rest ih =>
    intro k v x hx
    rcases p with ⟨k2, v2⟩
    rw [mapSet] at hx
    by_cases h : k2 = k
    · rw [if_pos h] at hx
      simp at hx
      rcases hx with h1 | h1
      · exact Or.inl (by simp [h1])
      · exact Or.inl (by simp; exact Or.inr h1)
    · rw [if_neg h] at hx
      simp at hx
      rcases hx with h1 | h1
      · exact Or.inl (by simp [h1])
      · rcases ih k v x (by simpa using h1) with h2 | h2
        · exact Or.inl (by simp; exact Or.inr (by simpa using h2))
        · exact Or.inr h2

theorem lookup_cons_ne (k k2 v2 : String) (rest : List (String × String))
    (h : (k == k2) = false) :
    List.lookup k ((k2, v2) :: rest) = List.lookup k rest := by
  simp [List.lookup, h]

theorem mapSet_keys_nodup : ∀ (m : List (String × String)) (k v : String),
    (m.map Prod.fst).Nodup → ((mapSet m k v).map Prod.fst).Nodup := by
  intro m
  induction m with
  | nil => intro k v _; simp [mapSet]
  | cons p rest ih =>
    intro k v hnd
    rcases p with ⟨k2, v2⟩
    simp only [List.map_cons, List.nodup_cons] at hnd
    rw [mapSet]
    by_cases h : k2 = k
    · rw [if_pos h]
      simp only [List.map_cons, List.nodup_cons]
      exact hnd
    · rw [if_neg h]
      simp only [List.map_cons, List.nodup_cons]
      constructor
      · intro hx
        rcases mapSet_keys_subset rest k v k2 hx with h2 | h2
        · exact hnd.1 h2
        · exact h h2
      · exact ih k v hnd.2

theorem lookup_eq_none_of_not_mem_keys : ∀ (m : List (String × String)) (k : String),
    k ∉ m.map Prod.fst → m.lookup k = none := by
  intro m
  induction m with
  | nil => intro k _; rfl
  | cons p rest ih =>
    intro k hk
    rcases p with ⟨k2, v2⟩
    simp only [List.map_cons, List.mem_cons, not_or] at hk
    have hb : (k == k2) = false := by simp [hk.1]
    rw [lookup_cons_ne k k2 v2 rest hb]
    exact ih k hk.2

theorem lookup_eq_of_mem_nodup : ∀ (m : List (String × String)) (k v : String),
    (m.map Prod.fst).Nodup → (k, v) ∈ m → m.lookup k = some v := by
  intro m
  induction m with
  | nil => intro k v _ hm; exact absurd hm (List.not_mem_nil _)
  | cons p rest ih =>
    intro k v hnd hm
    rcases p with ⟨k2, v2⟩
    simp at hnd
    rcases List.mem_cons.mp hm with h1 | h1
    · rw [Prod.mk.injEq] at h1
      rcases h1 with ⟨h1a, h1b⟩
      subst h1a; subst h1b
      simp [List.lookup]
    · have hk : k ≠ k2 := by
        intro hkk
        subst hkk
        exact hnd.1 v (by simpa using h1)
      have hb : (k == k2) = false := by simp [hk]
      simp [List.lookup, hb]
      exact ih k v hnd.2 h1

theorem mem_mapSet_self : ∀ (m : List (String × String)) (k v : String),
    (k, v) ∈ mapSet m k v := by
  intro m
  induction m with
  | nil => intro k v; simp [mapSet]
  | cons p rest ih =>
    intro k v
    rcases p with ⟨k2, v2⟩
    rw [mapSet]
    by_cases h : k2 = k
    · subst h
      simp
    · rw [if_neg h]
      exact List.mem_cons_of_mem _ (ih k v)

theorem lookup_mapDelete_self : ∀ (m : List (String × String)) (k : String),
    (m.map Prod.fst).Nodup → (mapDelete m k).lookup k = none := by
  intro m
  induction m with
  | nil => intro k _; rfl
  | cons p rest ih =>
    intro k hnd
    rcases p with ⟨k2, v2⟩
    simp only [List.map_cons, List.nodup_cons] at hnd
    rw [mapDelete]
    by_cases h : k2 = k
    · rw [if_pos h]
      subst h
      exact lookup_eq_none_of_not_mem_keys rest k2 hnd.1
    · rw [if_neg h]
      have hb : (k == k2) = false := by
        simp [BEq.beq]
        exact fun hh => h hh.symm
      rw [lookup_cons_ne k k2 v2 (mapDelete rest k) hb]
      exact ih k hnd.2

/-- Keys untouched by the load fold keep their lookup result. -/
theorem loadFold_lookup_not_mem : ∀ (entries acc : List (String × String)) (k : String),
    k ∉ entries.map Prod.fst →
    (entries.foldl (fun m p => if 0 < p.2.length then mapSet m p.1 p.2 else m) acc).lookup k =
      acc.lookup k := by
  intro entries
  induction entries with
  | nil => intro acc k _; rfl
  | cons p rest ih =>
    intro acc k hk
    simp only [List.map_cons, List.mem_cons, not_or] at hk
    rw [List.foldl_cons]
    rw [ih _ k hk.2]
    by_cases hp : 0 < p.2.length
    · rw [if_pos hp, mapSet_lookup_ne acc k p.1 p.2 hk.1]
    · rw [if_neg hp]

/-- Reloading the durable document recovers every entry with a non-empty
session id, as long as the document has no duplicate keys. -/
theorem loadFold_lookup (entries : List (String × String)) :
    ∀ (acc : List (String × String)) (k v : String),
    (entries.map Prod.fst).Nodup → (k, v) ∈ entries → 0 < v.length →
    (entries.foldl (fun m p => if 0 < p.2.length then mapSet m p.1 p.2 else m) acc).lookup k =
      some v := by
  induction entries with
  | nil => intro acc k v _ hm _; exact absurd hm (List.not_mem_nil _)
  | cons p rest ih =>
    intro acc k v hnd hm hv
    rcases p with ⟨k2, v2⟩
    simp only [List.map_cons, List.nodup_cons] at hnd
    rw [List.foldl_cons]
    rcases List.mem_cons.mp hm with h1 | h1
    · rw [Prod.mk.injEq] at h1
      rcases h1 with ⟨h1a, h1b⟩
      subst h1a; subst h1b
      rw [loadFold_lookup_not_mem rest _ k hnd.1]
      rw [if_pos hv]
      exact mapSet_lookup_self acc k v
    · exact ih _ k v hnd.2 h1 hv

theorem loadFold_keys_nodup (entries : List (String × String)) :
    ∀ acc : List (String × String), (acc.map Prod.fst).Nodup →
    ((entries.foldl (fun m p => if 0 < p.2.length then mapSet m p.1 p.2 else m) acc).map
      Prod.fst).Nodup := by
  induction entries with
  | nil => intro acc h; exact h
  | cons p rest ih =>
    intro acc h
    rw [List.foldl_cons]
    by_cases hp : 0 < p.2.length
    · rw [if_pos hp]
      exact ih _ (mapSet_keys_nodup acc p.1 p.2 h)
    · rw [if_neg hp]
      exact ih _ h

theorem loadOnce_loaded_true (s : SessionStoreState) : (loadOnce s).loaded = true := by
  unfold loadOnce
  split
  · rename_i h
    exact h
  · split <;> rfl

theorem loadOnce_of_loaded (s : SessionStoreState) (h : s.loaded = true) :
    loadOnce s = s := by
  unfold loadOnce
  rw [if_pos h]

theorem loadOnce_keys_nodup (s : SessionStoreState)
    (h : (s.sessions.map Prod.fst).Nodup) :
    ((loadOnce s).sessions.map Prod.fst).Nodup := by
  unfold loadOnce
  split
  · exact h
  · split
    · exact h
    · exact loadFold_keys_nodup _ s.sessions h

theorem length_pos_of_ne_empty (s : String) (h : s ≠ "") : 0 < s.length := by
  rcases s with ⟨l⟩
  cases l with
  | nil => exact absurd rfl h
  | cons c cs => simp [String.length]

/-! Claim C9, about the session registry. -/

/-- C9 counterexample: for the empty session id string, the durable reload
filters the entry out (`sessionId.length > 0`), so after `set(k, "")` and a
simulated restart, `get(k)` returns no mapping rather than `""` — refuting the
claim as stated for every session id string. -/
theorem sessionStore_empty_string_counterexample :
    (storeGet (restartStore (storeSet ⟨false, [], none⟩ 5 "")) 5).2 = none ∧
    (storeGet (restartStore (storeSet ⟨false, [], none⟩ 5 "")) 5).2 ≠ some "" := by
  constructor
  · rfl
  · intro h
    rw [show (storeGet (restartStore (storeSet ⟨false, [], none⟩ 5 "")) 5).2 = none
      from rfl] at h
    exact Option.noConfusion h

/-- C9 (amended): for every key and every NON-EMPTY session id, after
`set(k, s)` a `get(k)` returns `s`, including after a simulated restart that
reloads the registry from the durable store (the persisted write having
completed), and after `clear(k)` a `get(k)` returns no mapping. The in-memory
map is required to have no duplicate keys, an invariant of JavaScript `Map`. -/
theorem sessionStore_round_trip (s : SessionStoreState) (k : Int) (sid : String)
    (hsid : sid ≠ "") (hnodup : (s.sessions.map Prod.fst).Nodup) :
    (storeGet (storeSet s k sid) k).2 = some sid ∧
    (storeGet (restartStore (storeSet s k sid)) k).2 = some sid ∧
    (∀ s2 : SessionStoreState, (s2.sessions.map Prod.fst).Nodup →
      (storeGet (storeClear s2 k) k).2 = none) := by
  have hload := loadOnce_keys_nodup s hnodup
  refine ⟨?_, ?_, ?_⟩
  · show (loadOnce (storeSet s k sid)).sessions.lookup (toString k) = some sid
    rw [loadOnce_of_loaded _
      (show (storeSet s k sid).loaded = true from loadOnce_loaded_true s)]
    exact mapSet_lookup_self _ _ _
  · have hrs : restartStore (storeSet s k sid) =
        ⟨false, [], some (mapSet (loadOnce s).sessions (toString k) sid)⟩ := rfl
    show (loadOnce (restartStore (storeSet s k sid))).sessions.lookup (toString k) = some sid
    rw [hrs]
    show ((mapSet (loadOnce s).sessions (toString k) sid).foldl
        (fun m p => if 0 < p.2.length then mapSet m p.1 p.2 else m) []).lookup (toString k) =
      some sid
    exact loadFold_lookup _ [] (toString k) sid
      (mapSet_keys_nodup _ _ _ hload)
      (mem_mapSet_self _ _ _)
      (length_pos_of_ne_empty sid hsid)
  · intro s2 hnd2
    show (loadOnce (storeClear s2 k)).sessions.lookup (toString k) = none
    rw [loadOnce_of_loaded _
      (show (storeClear s2 k).loaded = true from loadOnce_loaded_true s2)]
    exact lookup_mapDelete_self _ _ (loadOnce_keys_nodup s2 hnd2)

/-- Witness for `sessionStore_round_trip` at a concrete store. -/
theorem sessionStore_round_trip_witness :
    (storeGet (storeSet ⟨false, [("7", "x")], none⟩ 5 "abc") 5).2 = some "abc" ∧
    (storeGet (restartStore (storeSet ⟨false, [("7", "x")], none⟩ 5 "abc")) 5).2 =
      some "abc" ∧
    (∀ s2 : SessionStoreState, (s2.sessions.map Prod.fst).Nodup →
      (storeGet (storeClear s2 5) 5).2 = none) :=
  sessionStore_round_trip ⟨false, [("7", "x")], none⟩ 5 "abc" (by decide) (by decide)

/-!
Model of `enqueueByChat` for one conversation key.

The source serializes tasks by promise chaining:

  `previous = inFlightByChat.get(chatId) ?? Promise.resolve();`
  `next = previous.then(task, task).catch(log).finally(delete-if-current);`
  `inFlightByChat.set(chatId, next);`

Submissions for one key are numbered 0, 1, 2, … in order. The chain promise
`next` created for task `i` is identified with `i`. The event-loop behaviour
is modelled as a small-step transition system over observable events:

* `submit` — one `enqueueByChat` call: it records, as `prevOf i`, the promise
  the new task is chained on (the stored chain if the map has an entry, else
  the already-resolved promise, written `none`), and stores chain `i`;
* `start i` — the microtask invoking `task` fires: possible only once, and
  only after the promise the task was chained on has settled — with either
  outcome, because `.then(task, task)` installs the task as both the
  fulfilment and the rejection handler;
* `finish i ok` — the async task body completes, fulfilled (`ok = true`) or
  rejected (`ok = false`); enabling of later events never depends on `ok`,
  because the `.catch` swallows the rejection;
* `settleChain i` — chain promise `i` settles (after its task finished,
  through the `.catch`/`.finally` microtasks) and the `.finally` callback
  deletes the map entry when the stored chain is still `next` itself.

A scheduler chooses any interleaving of enabled events; `runQueue` replays one
such trace, returning `none` when an event is not enabled.
-/

inductive QueueEvent where
  | submit
  | start (i : Nat)
  | finish (i : Nat) (ok : Bool)
  | settleChain (i : Nat)
deriving DecidableEq

structure QueueState where
  submitted : Nat
  prevOf : List (Nat × Option Nat)
  started : List Nat
  finished : List Nat
  rejected : List Nat
  chainSettled : List Nat
  stored : Option Nat
deriving DecidableEq

def initQueueState : QueueState := ⟨0, [], [], [], [], [], none⟩

/-- Whether the promise task `i` was chained on has settled: the resolved
promise (`none`) is settled from the outset, a stored chain `j` once chain
`j` settled. -/
def prevSettled (s : QueueState) (i : Nat) : Bool :=
  match s.prevOf.lookup i with
  | some none => true
  | some (some j) => s.chainSettled.contains j
  | none => false

def enqueueStep (s : QueueState) (e : QueueEvent) : Option QueueState :=
  match e with
  | .submit =>
    some { s with
      submitted := s.submitted + 1
      prevOf := s.prevOf ++ [(s.submitted, s.stored)]
      stored := some s.submitted }
  | .start i =>
    if i < s.submitted ∧ i ∉ s.started ∧ prevSettled s i = true then
      some { s with started := i :: s.started }
    else none
  | .finish i ok =>
    if i ∈ s.started ∧ i ∉ s.finished then
      some { s with
        finished := i :: s.finished
        rejected := if ok then s.rejected else i :: s.rejected }
    else none
  | .settleChain i =>
    if i ∈ s.finished ∧ i ∉ s.chainSettled then
      some { s with
        chainSettled := i :: s.chainSettled
        stored := if s.stored = some i then none else s.stored }
    else none

def runQueue : QueueState → List QueueEvent → Option QueueState
  | s, [] => some s
  | s, e :: rest =>
    match enqueueStep s e with
    | some s2 => runQueue s2 rest
    | none => none

/-- The reachability invariant of the per-key queue. -/
structure QueueInv (s : QueueState) : Prop where
  started_lt : ∀ i ∈ s.started, i < s.submitted
  finished_started : ∀ i ∈ s.finished, i ∈ s.started
  settled_finished : ∀ i ∈ s.chainSettled, i ∈ s.finished
  ordered : ∀ i j, i ∈ s.started → j < i → j ∈ s.finished
  prev_keys : s.prevOf.map Prod.fst = List.range s.submitted
  prev_succ : ∀ i j, (i, some j) ∈ s.prevOf → j + 1 = i
  prev_none_finished : ∀ i, (i, (none : Option Nat)) ∈ s.prevOf → ∀ j, j < i → j ∈ s.finished
  stored_last : ∀ k, s.stored = some k → k + 1 = s.submitted
  stored_none_finished : s.stored = none → ∀ j, j < s.submitted → j ∈ s.finished

theorem initQueueInv : QueueInv initQueueState := by
  constructor <;> simp [initQueueState]

theorem natLookup_mem : ∀ (l : List (Nat × Option Nat)) (i : Nat) (p : Option Nat),
    l.lookup i = some p → (i, p) ∈ l := by
  intro l
  induction l with
  | nil => intro i p h; exact absurd h (by simp [List.lookup])
  | cons q rest ih =>
    intro i p h
    rcases q with ⟨k, v⟩
    by_cases hk : (i == k) = true
    · have : i = k := by simpa using hk
      subst this
      simp [List.lookup] at h
      subst h
      exact List.mem_cons_self _ _
    · have hb : (i == k) = false := by
        cases hbb : (i == k)
        · rfl
        · exact absurd hbb hk
      simp [List.lookup, hb] at h
      exact List.mem_cons_of_mem _ (ih i p h)

theorem natLookup_exists_of_mem_keys : ∀ (l : List (Nat × Option Nat)) (i : Nat),
    i ∈ l.map Prod.fst → ∃ p, l.lookup i = some p := by
  intro l
  induction l with
  | nil => intro i h; exact absurd h (by simp)
  | cons q rest ih =>
    intro i h
    rcases q with ⟨k, v⟩
    by_cases hk : i = k
    · subst hk
      exact ⟨v, by simp [List.lookup]⟩
    · have hb : (i == k) = false := by simp [hk]
      simp only [List.map_cons, List.mem_cons] at h
      rcases h with h | h
      · exact absurd h hk
      · rcases ih i h with ⟨p, hp⟩
        exact ⟨p, by simp [List.lookup, hb, hp]⟩

/-- Every enabled step preserves the queue invariant. -/
theorem enqueueStep_inv (s s2 : QueueState) (e : QueueEvent)
    (h : enqueueStep s e = some s2) (inv : QueueInv s) : QueueInv s2 := by
  cases e with
  | submit =>
    rw [enqueueStep] at h
    injection h with h
    subst h
    constructor
    · intro i hi
      exact Nat.lt_succ_of_lt (inv.started_lt i hi)
    · exact inv.finished_started
    · exact inv.settled_finished
    · exact inv.ordered
    · show (s.prevOf ++ [(s.submitted, s.stored)]).map Prod.fst = List.range (s.submitted + 1)
      rw [List.map_append, inv.prev_keys, List.range_succ]
      rfl
    · intro i j hij
      rw [List.mem_append] at hij
      rcases hij with hij | hij
      · exact inv.prev_succ i j hij
      · rw [List.mem_singleton, Prod.mk.injEq] at hij
        rcases hij with ⟨hi, hj⟩
        subst hi
        exact inv.stored_last j hj.symm
    · intro i hi j hj
      rw [List.mem_append] at hi
      rcases hi with hi | hi
      · exact inv.prev_none_finished i hi j hj
      · rw [List.mem_singleton, Prod.mk.injEq] at hi
        rcases hi with ⟨hi1, hi2⟩
        subst hi1
        exact inv.stored_none_finished hi2.symm j hj
    · intro k hk
      injection hk with hk
      show k + 1 = s.submitted + 1
      omega
    · intro hnone
      exact Option.noConfusion hnone
  | start i =>
    rw [enqueueStep] at h
    split at h
    · rename_i hcond
      injection h with h
      subst h
      obtain ⟨hlt, hnotmem, hsettled⟩ := hcond
      have hall : ∀ j, j < i → j ∈ s.finished := by
        have hkeys : i ∈ s.prevOf.map Prod.fst := by
          rw [inv.prev_keys]
          exact List.mem_range.mpr hlt
        rcases natLookup_exists_of_mem_keys s.prevOf i hkeys with ⟨p, hp⟩
        have hmem := natLookup_mem s.prevOf i p hp
        cases p with
        | none => exact inv.prev_none_finished i hmem
        | some j =>
          have hjset : j ∈ s.chainSettled := by
            rw [prevSettled, hp] at hsettled
            simpa using hsettled
          have hjfin : j ∈ s.finished := inv.settled_finished j hjset
          have hjstart : j ∈ s.started := inv.finished_started j hjfin
          have hji : j + 1 = i := inv.prev_succ i j hmem
          intro j2 hj2
          by_cases hj2j : j2 = j
          · subst hj2j; exact hjfin
          · exact inv.ordered j j2 hjstart (by omega)
      constructor
      · intro i2 hi2
        rcases List.mem_cons.mp hi2 with h2 | h2
        · subst h2; exact hlt
        · exact inv.started_lt i2 h2
      · intro i2 hi2
        exact List.mem_cons_of_mem _ (inv.finished_started i2 hi2)
      · exact inv.settled_finished
      · intro i2 j hi2 hj
        rcases List.mem_cons.mp hi2 with h2 | h2
        · subst h2; exact hall j hj
        · exact inv.ordered i2 j h2 hj
      · exact inv.prev_keys
      · exact inv.prev_succ
      · exact inv.prev_none_finished
      · exact inv.stored_last
      · exact inv.stored_none_finished
    · exact absurd h (by simp)
  | finish i ok =>
    rw [enqueueStep] at h
    split at h
    · rename_i hcond
      injection h with h
      subst h
      obtain ⟨hstart, hnotfin⟩ := hcond
      constructor
      · exact inv.started_lt
      · intro i2 hi2
        rcases List.mem_cons.mp hi2 with h2 | h2
        · subst h2; exact hstart
        · exact inv.finished_started i2 h2
      · intro i2 hi2
        exact List.mem_cons_of_mem _ (inv.settled_finished i2 hi2)
      · intro i2 j hi2 hj
        exact List.mem_cons_of_mem _ (inv.ordered i2 j hi2 hj)
      · exact inv.prev_keys
      · exact inv.prev_succ
      · intro i2 hi2 j hj
        exact List.mem_cons_of_mem _ (inv.prev_none_finished i2 hi2 j hj)
      · exact inv.stored_last
      · intro hnone j hj
        exact List.mem_cons_of_mem _ (inv.stored_none_finished hnone j hj)
    · exact absurd h (by simp)
  | settleChain i =>
    rw [enqueueStep] at h
    split at h
    · rename_i hcond
      injection h with h
      subst h
      obtain ⟨hfin, hnotset⟩ := hcond
      constructor
      · exact inv.started_lt
      · exact inv.finished_started
      · intro i2 hi2
        rcases List.mem_cons.mp hi2 with h2 | h2
        · subst h2; exact hfin
        · exact inv.settled_finished i2 h2
      · exact inv.ordered
      · exact inv.prev_keys
      · exact inv.prev_succ
      · exact inv.prev_none_finished
      · intro k hk
        by_cases hsi : s.stored = some i
        · rw [if_pos hsi] at hk
          exact Option.noConfusion hk
        · rw [if_neg hsi] at hk
          exact inv.stored_last k hk
      · intro hnone j hj
        have hj2 : j < s.submitted := hj
        by_cases hsi : s.stored = some i
        · have hlast := inv.stored_last i hsi
          have histart : i ∈ s.started := inv.finished_started i hfin
          by_cases hji : j = i
          · subst hji; exact hfin
          · exact inv.ordered i j histart (by omega)
        · rw [if_neg hsi] at hnone
          exact inv.stored_none_finished hnone j hj
    · exact absurd h (by simp)

theorem runQueue_cons_some (s0 s1 : QueueState) (e : QueueEvent) (rest : List QueueEvent)
    (h : enqueueStep s0 e = some s1) : runQueue s0 (e :: rest) = runQueue s1 rest := by
  rw [runQueue, h]

theorem runQueue_cons_none (s0 : QueueState) (e : QueueEvent) (rest : List QueueEvent)
    (h : enqueueStep s0 e = none) : runQueue s0 (e :: rest) = none := by
  rw [runQueue, h]

theorem runQueue_inv : ∀ (events : List QueueEvent) (s0 s : QueueState),
    runQueue s0 events = some s → QueueInv s0 → QueueInv s := by
  intro events
  induction events with
  | nil =>
    intro s0 s h inv
    rw [runQueue] at h
    injection h with h
    subst h
    exact inv
  | cons e rest ih =>
    intro s0 s h inv
    cases henq : enqueueStep s0 e with
    | none =>
      rw [runQueue_cons_none s0 e rest henq] at h
      exact absurd h (by simp)
    | some s1 =>
      rw [runQueue_cons_some s0 s1 e rest henq] at h
      exact ih s1 s h (enqueueStep_inv s0 s1 e henq inv)

theorem runQueue_append : ∀ (a : List QueueEvent) (b : List QueueEvent) (s0 s1 : QueueState),
    runQueue s0 a = some s1 → runQueue s0 (a ++ b) = runQueue s1 b := by
  intro a
  induction a with
  | nil =>
    intro b s0 s1 h
    rw [runQueue] at h
    injection h with h
    subst h
    rfl
  | cons e rest ih =>
    intro b s0 s1 h
    cases henq : enqueueStep s0 e with
    | none =>
      rw [runQueue_cons_none s0 e rest henq] at h
      exact absurd h (by simp)
    | some s2 =>
      rw [runQueue_cons_some s0 s2 e rest henq] at h
      rw [List.cons_append, runQueue_cons_some s0 s2 e (rest ++ b) henq]
      exact ih b s2 s1 h

/-- Along every valid trace, the number of times task `i` has started equals
one or zero according to whether it is recorded as started: a task is never
invoked twice. -/
theorem runQueue_startCount : ∀ (events : List QueueEvent) (s0 s : QueueState),
    runQueue s0 events = some s → ∀ i,
    (if i ∈ s.started then 1 else 0) =
      (if i ∈ s0.started then 1 else 0) + events.count (QueueEvent.start i) := by
  intro events
  induction events with
  | nil =>
    intro s0 s h i
    rw [runQueue] at h
    injection h with h
    subst h
    simp
  | cons e rest ih =>
    intro s0 s h i
    cases henq : enqueueStep s0 e with
    | none =>
      rw [runQueue_cons_none s0 e rest henq] at h
      exact absurd h (by simp)
    | some s1 =>
      rw [runQueue_cons_some s0 s1 e rest henq] at h
      have hih := ih s1 s h i
      rw [List.count_cons]
      cases e with
      | submit =>
        rw [enqueueStep] at henq
        injection henq with henq
        have hst : s1.started = s0.started := by rw [← henq]
        rw [hst] at hih
        rw [show (QueueEvent.submit == QueueEvent.start i) = false from rfl]
        simpa using hih
      | start j =>
        rw [enqueueStep] at henq
        split at henq
        · rename_i hcond
          injection henq with henq
          obtain ⟨hlt, hnotmem, hsett⟩ := hcond
          have hst : s1.started = j :: s0.started := by rw [← henq]
          rw [hst] at hih
          by_cases hji : j = i
          · subst hji
            have h0 : (if j ∈ s0.started then 1 else 0) = 0 := by simp [hnotmem]
            have h1 : (if j ∈ j :: s0.started then 1 else 0) = 1 := by simp
            rw [h1] at hih
            rw [h0]
            rw [show (QueueEvent.start j == QueueEvent.start j) = true by simp]
            simp only [if_true]
            omega
          · have hmm : (i ∈ j :: s0.started) ↔ (i ∈ s0.started) := by
              constructor
              · intro hx
                rcases List.mem_cons.mp hx with hx | hx
                · exact absurd hx.symm hji
                · exact hx
              · exact List.mem_cons_of_mem j
            rw [show (QueueEvent.start j == QueueEvent.start i) = false by simp [hji]]
            simp only [hmm] at hih
            simpa using hih
        · exact absurd henq (by simp)
      | finish j ok =>
        rw [enqueueStep] at henq
        split at henq
        · injection henq with henq
          have hst : s1.started = s0.started := by rw [← henq]
          rw [hst] at hih
          rw [show (QueueEvent.finish j ok == QueueEvent.start i) = false from rfl]
          simpa using hih
        · exact absurd henq (by simp)
      | settleChain j =>
        rw [enqueueStep] at henq
        split at henq
        · injection henq with henq
          have hst : s1.started = s0.started := by rw [← henq]
          rw [hst] at hih
          rw [show (QueueEvent.settleChain j == QueueEvent.start i) = false from rfl]
          simpa using hih
        · exact absurd henq (by simp)

/-- From any reachable state the scheduler can run every submitted task to
completion: settle the pending predecessor chain if needed, then start and
finish the least unfinished task, and repeat. -/
theorem queue_completion : ∀ (n : Nat) (s : QueueState) (t : Nat),
    QueueInv s → t ≤ s.submitted → n = s.submitted - t →
    (∀ j, j < t → j ∈ s.finished) →
    ∃ ext s2, runQueue s ext = some s2 ∧ QueueInv s2 ∧
      s2.submitted = s.submitted ∧ (∀ i, i < s2.submitted → i ∈ s2.finished) := by
  intro n
  induction n with
  | zero =>
    intro s t inv hts hn hfin
    refine ⟨[], s, rfl, inv, rfl, ?_⟩
    intro i hi
    exact hfin i (by omega)
  | succ m ih =>
    intro s t inv hts hn hfin
    have htlt : t < s.submitted := by omega
    by_cases hfin_t : t ∈ s.finished
    · obtain ⟨ext, s2, hrun, inv2, hsub, hall⟩ := ih s (t + 1) inv (by omega) (by omega) (by
        intro j hj
        by_cases hjt : j = t
        · subst hjt; exact hfin_t
        · exact hfin j (by omega))
      exact ⟨ext, s2, hrun, inv2, hsub, hall⟩
    · have hnotfin := hfin_t
      have stepThen : ∀ s1 : QueueState, QueueInv s1 → s1.submitted = s.submitted →
          s1.finished = s.finished → prevSettled s1 t = true → t ∉ s1.started →
          ∃ ext s2, runQueue s1 ext = some s2 ∧ QueueInv s2 ∧
            s2.submitted = s.submitted ∧ (∀ i, i < s2.submitted → i ∈ s2.finished) := by
        intro s1 inv1 hsub1 hfin1 hsett1 hns1
        have henqSt : enqueueStep s1 (QueueEvent.start t) =
            some { s1 with started := t :: s1.started } := by
          rw [enqueueStep, if_pos (⟨by rw [hsub1]; exact htlt, hns1, hsett1⟩ :
            t < s1.submitted ∧ t ∉ s1.started ∧ prevSettled s1 t = true)]
        have inv1b := enqueueStep_inv _ _ _ henqSt inv1
        have henqF : enqueueStep { s1 with started := t :: s1.started }
            (QueueEvent.finish t true) =
            some { s1 with
              started := t :: s1.started
              finished := t :: s1.finished
              rejected := if true then s1.rejected else t :: s1.rejected } := by
          rw [enqueueStep, if_pos (⟨List.mem_cons_self t s1.started, by
            rw [show ({ s1 with started := t :: s1.started } : QueueState).finished =
              s.finished from hfin1]
            exact hnotfin⟩ :
            t ∈ ({ s1 with started := t :: s1.started } : QueueState).started ∧
            t ∉ ({ s1 with started := t :: s1.started } : QueueState).finished)]
        have inv1c := enqueueStep_inv _ _ _ henqF inv1b
        obtain ⟨ext, s2, hrun, inv2, hsub2, hall⟩ :=
          ih { s1 with
                started := t :: s1.started
                finished := t :: s1.finished
                rejected := if true then s1.rejected else t :: s1.rejected }
            (t + 1) inv1c
            (show t + 1 ≤ s1.submitted by omega)
            (show m = s1.submitted - (t + 1) by rw [hsub1]; omega)
            (by
              intro j hj
              show j ∈ t :: s1.finished
              by_cases hjt : j = t
              · subst hjt; exact List.mem_cons_self _ _
              · rw [hfin1]
                exact List.mem_cons_of_mem t (hfin j (by omega)))
        refine ⟨QueueEvent.start t :: QueueEvent.finish t true :: ext, s2, ?_, inv2, ?_, hall⟩
        · rw [runQueue_cons_some _ _ _ _ henqSt, runQueue_cons_some _ _ _ _ henqF]
          exact hrun
        · rw [hsub2, hsub1]
      by_cases hstart_t : t ∈ s.started
      · have henqF : enqueueStep s (QueueEvent.finish t true) =
            some { s with
              finished := t :: s.finished
              rejected := if true then s.rejected else t :: s.rejected } := by
          rw [enqueueStep, if_pos (⟨hstart_t, hfin_t⟩ : t ∈ s.started ∧ t ∉ s.finished)]
        have invF := enqueueStep_inv _ _ _ henqF inv
        obtain ⟨ext, s2, hrun, inv2, hsub2, hall⟩ :=
          ih { s with
                finished := t :: s.finished
                rejected := if true then s.rejected else t :: s.rejected }
            (t + 1) invF
            (show t + 1 ≤ s.submitted by omega)
            (show m = s.submitted - (t + 1) by omega)
            (by
              intro j hj
              show j ∈ t :: s.finished
              by_cases hjt : j = t
              · subst hjt; exact List.mem_cons_self _ _
              · exact List.mem_cons_of_mem t (hfin j (by omega)))
        refine ⟨QueueEvent.finish t true :: ext, s2, ?_, inv2, hsub2, hall⟩
        rw [runQueue_cons_some _ _ _ _ henqF]
        exact hrun
      · have hkeys : t ∈ s.prevOf.map Prod.fst := by
          rw [inv.prev_keys]
          exact List.mem_range.mpr htlt
        obtain ⟨p, hp⟩ := natLookup_exists_of_mem_keys s.prevOf t hkeys
        cases p with
        | none =>
          have hsett : prevSettled s t = true := by rw [prevSettled, hp]
          exact stepThen s inv rfl rfl hsett hstart_t
        | some j =>
          have hmem := natLookup_mem s.prevOf t _ hp
          have hji : j + 1 = t := inv.prev_succ t j hmem
          have hjfin : j ∈ s.finished := hfin j (by omega)
          by_cases hjset : j ∈ s.chainSettled
          · have hsett : prevSettled s t = true := by
              rw [prevSettled, hp]
              simpa using hjset
            exact stepThen s inv rfl rfl hsett hstart_t
          · have henqS : enqueueStep s (QueueEvent.settleChain j) =
                some { s with
                  chainSettled := j :: s.chainSettled
                  stored := if s.stored = some j then none else s.stored } := by
              rw [enqueueStep, if_pos (⟨hjfin, hjset⟩ :
                j ∈ s.finished ∧ j ∉ s.chainSettled)]
            have invS := enqueueStep_inv _ _ _ henqS inv
            have hsettS : prevSettled { s with
                chainSettled := j :: s.chainSettled
                stored := if s.stored = some j then none else s.stored } t = true := by
              rw [prevSettled]
              rw [show ({ s with
                chainSettled := j :: s.chainSettled
                stored := if s.stored = some j then none else s.stored } :
                QueueState).prevOf = s.prevOf from rfl, hp]
              simp
            obtain ⟨ext, s2, hrun, inv2, hsub2, hall⟩ :=
              stepThen _ invS rfl rfl hsettS hstart_t
            refine ⟨QueueEvent.settleChain j :: ext, s2, ?_, inv2, hsub2, hall⟩
            rw [runQueue_cons_some _ _ _ _ henqS]
            exact hrun

/-- The serialization guarantees of `enqueueByChat` for one conversation key,
for a trace `events` reaching state `s`: every task has started at most once
(exactly once if recorded started); a task starts only after every earlier
submission finished (strict submission order); at most one task is in flight
(started and unfinished) at a time; and the trace extends to one in which
every one of the `submitted` tasks has run exactly once. -/
def QueueSerialization (events : List QueueEvent) (s : QueueState) : Prop :=
  (∀ i, events.count (QueueEvent.start i) = if i ∈ s.started then 1 else 0) ∧
  (∀ i j, i ∈ s.started → j < i → j ∈ s.finished) ∧
  (∀ i j, i ∈ s.started → i ∉ s.finished → j ∈ s.started → j ∉ s.finished → i = j) ∧
  (∃ ext s2, runQueue s ext = some s2 ∧ s2.submitted = s.submitted ∧
    (∀ i, i < s2.submitted → i ∈ s2.finished) ∧
    (∀ i, i < s2.submitted → (events ++ ext).count (QueueEvent.start i) = 1))

/-- C1: for every valid scheduler trace of `enqueueByChat` submissions on one
conversation key, the tasks execute at most once each, strictly in submission
order, with at most one task in flight at any time (this holds at EVERY
moment, since every prefix of a valid trace is itself a valid trace), even
when some tasks reject; and the scheduler can always complete the trace so
that each of the N submitted tasks has executed exactly once. -/
theorem enqueueByChat_serializes (events : List QueueEvent) (s : QueueState)
    (h : runQueue initQueueState events = some s) : QueueSerialization events s := by
  have inv := runQueue_inv events initQueueState s h initQueueInv
  have hcount := runQueue_startCount events initQueueState s h
  refine ⟨?_, inv.ordered, ?_, ?_⟩
  · intro i
    have hci := hcount i
    simp only [initQueueState, List.not_mem_nil, if_false, Nat.zero_add] at hci
    exact hci.symm
  · intro i j hi hif hj hjf
    rcases Nat.lt_trichotomy i j with hlt | heq | hgt
    · exact absurd (inv.ordered j i hj hlt) hif
    · exact heq
    · exact absurd (inv.ordered i j hi hgt) hjf
  · obtain ⟨ext, s2, hrun, inv2, hsub, hall⟩ :=
      queue_completion s.submitted s 0 inv (by omega) (by omega)
        (fun j hj => absurd hj (by omega))
    refine ⟨ext, s2, hrun, hsub, hall, ?_⟩
    intro i hi
    have hcomb : runQueue initQueueState (events ++ ext) = some s2 := by
      rw [runQueue_append events ext initQueueState s h]
      exact hrun
    have hc2 := runQueue_startCount (events ++ ext) initQueueState s2 hcomb i
    have hstarted : i ∈ s2.started := inv2.finished_started i (hall i hi)
    simp only [initQueueState, List.not_mem_nil, if_false, Nat.zero_add, hstarted,
      if_true] at hc2
    exact hc2.symm

/-- Witness for `enqueueByChat_serializes`: two submissions, the first task
rejecting, both executed in order. -/
theorem enqueueByChat_serializes_witness :
    QueueSerialization
      [QueueEvent.submit, QueueEvent.submit, QueueEvent.start 0,
        QueueEvent.finish 0 false, QueueEvent.settleChain 0,
        QueueEvent.start 1, QueueEvent.finish 1 true]
      ⟨2, [(0, none), (1, some 0)], [1, 0], [1, 0], [0], [0], some 1⟩ :=
  enqueueByChat_serializes
    [QueueEvent.submit, QueueEvent.submit, QueueEvent.start 0,
      QueueEvent.finish 0 false, QueueEvent.settleChain 0,
      QueueEvent.start 1, QueueEvent.finish 1 true]
    ⟨2, [(0, none), (1, some 0)], [1, 0], [1, 0], [0], [0], some 1⟩
    (by decide)

end OdexRelay
